import Mathlib

/-!
Verification development for the aioevproc event-dispatch engine.

The embedding follows `aioevproc/__init__.py`:
  * `handler` models one application of the `handler(*predicates)` decorator
    (source lines 32-43); a failed `assert` is `Except.error ()`.
  * `init_subclass` models `EventsProcessor.__init_subclass__`
    (source lines 56-69).
  * `evalAnd` / `evalOr` model the generator expression
    `any(all(pred(event) for pred in and_predicates) for and_predicates in
    or_predicates)` (source lines 74-77), producing the trace of predicate
    calls actually made (Python generators short-circuit).
  * `invokeHandler` models the result classification of lines 79-90:
    coroutines are awaited and their resolved value taken as the continuation
    flag; async / sync context managers are entered on the middleware stack;
    any other value is the continuation flag.
  * `processLoop` models the `for` loop, `unwindStack` models
    `AsyncExitStack.__aexit__` (reverse-order exits, suppression clears the
    pending exception), and `process_event` composes them as the
    `async with` block does.

Executions produce a trace of observable events (predicate calls, handler
invocations, scope entries and exits with the exception each exit observes)
so that ordering and short-circuit claims are statements about traces.
-/

namespace Aioevproc

/-- Exceptions are identified by a numeric tag. -/
abbrev Exc := Nat

/-- A context manager object: its identifier, whether entering it raises, and
which exceptions its exit suppresses.  Models both sync and async context
managers returned by handler methods. -/
structure CM where
  id : Nat
  enterExc : Option Exc
  suppress : Exc → Bool

/-- Python values a handler may return or a coroutine may resolve to.
`none` is Python `None`; `syncCM` / `asyncCM` are context-manager objects. -/
inductive PyVal where
  | none
  | bool (b : Bool)
  | int (n : Int)
  | str (s : String)
  | list (elems : List PyVal)
  | syncCM (cm : CM)
  | asyncCM (cm : CM)

/-- Python truthiness (`bool(v)`), as used by `if not call_next_handlers`. -/
def PyVal.truthy : PyVal → Bool
  | .none => false
  | .bool b => b
  | .int n => n != 0
  | .str s => s != ""
  | .list l => !l.isEmpty
  | .syncCM _ => true
  | .asyncCM _ => true

/-- Whether a value is a context-manager object (would pass one of the
`isinstance` checks on lines 83 and 85). -/
def PyVal.isCMVal : PyVal → Bool
  | .syncCM _ => true
  | .asyncCM _ => true
  | _ => false

/-- A handler method's immediate return value: either a coroutine (a
suspension that, when awaited, resolves to a value or raises) or a plain,
non-suspending value. -/
inductive RetVal where
  | coro (result : Except Exc PyVal)
  | sync (v : PyVal)

/-- An event predicate with an identity (so traces can record calls).
Evaluation may raise. -/
structure Pred (Event : Type) where
  id : Nat
  eval : Event → Except Exc Bool

/-- A raw (undecorated) method of a processor class body. -/
structure Method (Event : Type) where
  id : Nat
  run : Event → Except Exc RetVal

/-- One entry of the handler registry `cls._handlers`: an optional predicate
group set (list of AND-clauses) and the handler method. -/
structure HandlerDecl (Event : Type) where
  id : Nat
  groups : Option (List (List (Pred Event)))
  run : Event → Except Exc RetVal

/-- Observable events of one dispatch. -/
inductive TraceEv where
  | predCall (id : Nat)
  | handlerCall (id : Nat)
  | enterScope (id : Nat)
  | exitScope (id : Nat) (observed : Option Exc)
deriving DecidableEq

/-- The decoration-time state of a method's `__handler_predicates__`
attribute: `Option.none` = attribute absent, `some Option.none` = attribute
set to Python `None` (unconditional marker), `some (some l)` = the
accumulated list of AND-clauses, innermost-applied first. -/
abbrev AttrState (Event : Type) := Option (Option (List (List (Pred Event))))

variable {Event : Type}

/-- One application of the `handler(*predicates)` decorator to a method with
attribute state `attr` (source lines 32-43).  A failing `assert` is
`Except.error ()`. -/
def handler (predicates : List (Pred Event)) (attr : AttrState Event) :
    Except Unit (AttrState Event) :=
  if predicates.isEmpty then
    match attr with
    | Option.none => .ok (some Option.none)
    | some _ => .error ()
  else
    match attr with
    | Option.none => .ok (some (some [predicates]))
    | some Option.none => .error ()
    | some (some l) => .ok (some (some (l ++ [predicates])))

/-- Apply a sequence of decorator calls, first element applied first. -/
def applyCalls : List (List (Pred Event)) → AttrState Event →
    Except Unit (AttrState Event)
  | [], attr => .ok attr
  | preds :: rest, attr =>
    match handler preds attr with
    | .error e => .error e
    | .ok attr2 => applyCalls rest attr2

/-- Evaluate a stack of decorator calls listed in source (top-to-bottom)
order: Python applies stacked decorators bottom-up, i.e. innermost first. -/
def evalDecorators (calls : List (List (Pred Event))) :
    Except Unit (AttrState Event) :=
  applyCalls calls.reverse Option.none

/-- `EventsProcessor.__init_subclass__` (source lines 56-69): collect, in
member-declaration order, every member carrying the attribute; reverse a
non-`None` predicate list to follow decorator source order. -/
def init_subclass (members : List (AttrState Event × Method Event)) :
    List (HandlerDecl Event) :=
  members.filterMap fun am =>
    match am.1 with
    | Option.none => Option.none
    | some g => some ⟨am.2.id, g.map List.reverse, am.2.run⟩

/-- Evaluate a class body: run every member's decorator stack; any failed
assertion aborts the class definition. -/
def defineMembers : List (List (List (Pred Event)) × Method Event) →
    Except Unit (List (AttrState Event × Method Event))
  | [] => .ok []
  | cm :: rest =>
    match evalDecorators cm.1 with
    | .error e => .error e
    | .ok a =>
      match defineMembers rest with
      | .error e => .error e
      | .ok ms => .ok ((a, cm.2) :: ms)

/-- Define a processor type: evaluate the class body (decorators), then build
the registry via `__init_subclass__`.  Fails iff some decorator assertion
fails, in which case the type is unusable. -/
def makeProcessor (body : List (List (List (Pred Event)) × Method Event)) :
    Except Unit (List (HandlerDecl Event)) :=
  match defineMembers body with
  | .error e => .error e
  | .ok ms => .ok (init_subclass ms)

/-- Evaluate one AND-clause left to right with short-circuit on the first
`false` (the inner `all(...)` generator on line 75), recording every
predicate actually called. -/
def evalAnd (e : Event) : List (Pred Event) → List TraceEv × Except Exc Bool
  | [] => ([], .ok true)
  | p :: ps =>
    match p.eval e with
    | .error ex => ([.predCall p.id], .error ex)
    | .ok false => ([.predCall p.id], .ok false)
    | .ok true =>
      let r := evalAnd e ps
      (.predCall p.id :: r.1, r.2)

/-- Evaluate the OR-clauses left to right with short-circuit on the first
match (the `any(...)` generator on lines 74-77). -/
def evalOr (e : Event) :
    List (List (Pred Event)) → List TraceEv × Except Exc Bool
  | [] => ([], .ok false)
  | c :: cs =>
    let r := evalAnd e c
    match r.2 with
    | .error ex => (r.1, .error ex)
    | .ok true => (r.1, .ok true)
    | .ok false =>
      let r2 := evalOr e cs
      (r.1 ++ r2.1, r2.2)

/-- Outcome of processing one handler declaration. -/
inductive StepRes where
  | cont (tr : List TraceEv) (stack : List CM)
  | stop (tr : List TraceEv)
  | raised (tr : List TraceEv) (ex : Exc)

/-- The trace produced by one declaration step. -/
def StepRes.trace : StepRes → List TraceEv
  | .cont tr _ => tr
  | .stop tr => tr
  | .raised tr _ => tr

/-- Enter a context manager onto the middleware stack
(`enter_async_context` / `enter_context`, lines 84 and 86); if its entry
raises, the scope is not pushed and the exception propagates. -/
def enterCM (cm : CM) (tr : List TraceEv) (stack : List CM) : StepRes :=
  match cm.enterExc with
  | some ex => .raised tr ex
  | Option.none => .cont (tr ++ [.enterScope cm.id]) (cm :: stack)

/-- Invoke the handler method and classify its result (source lines 79-90):
the `iscoroutine` check comes first, then the two `isinstance` context
manager checks, then the plain-value branch. -/
def invokeHandler (e : Event) (h : HandlerDecl Event) (stack : List CM)
    (trP : List TraceEv) : StepRes :=
  let tr := trP ++ [.handlerCall h.id]
  match h.run e with
  | .error ex => .raised tr ex
  | .ok (.coro (.error ex)) => .raised tr ex
  | .ok (.coro (.ok v)) => if v.truthy then .cont tr stack else .stop tr
  | .ok (.sync v) =>
    match v with
    | .asyncCM cm => enterCM cm tr stack
    | .syncCM cm => enterCM cm tr stack
    | w => if w.truthy then .cont tr stack else .stop tr

/-- Process one handler declaration: skip it when its predicate group set is
present and does not match (lines 73-78), otherwise invoke the handler. -/
def runDecl (e : Event) (h : HandlerDecl Event) (stack : List CM) : StepRes :=
  match h.groups with
  | Option.none => invokeHandler e h stack []
  | some gs =>
    let r := evalOr e gs
    match r.2 with
    | .error ex => .raised r.1 ex
    | .ok false => .cont r.1 stack
    | .ok true => invokeHandler e h stack r.1

/-- How the dispatch loop ended: ran through all declarations, stopped early
(`break` on line 90), or an exception propagated out of the loop body. -/
inductive LoopExit where
  | normal
  | stopped
  | raised (ex : Exc)
deriving DecidableEq

/-- The `for` loop of `process_event` (lines 73-90): trace so far, middleware
stack so far, and how the loop ended. -/
def processLoop (e : Event) : List (HandlerDecl Event) → List CM →
    List TraceEv × List CM × LoopExit
  | [], stack => ([], stack, .normal)
  | h :: rest, stack =>
    match runDecl e h stack with
    | .cont tr stack2 =>
      let r := processLoop e rest stack2
      (tr ++ r.1, r.2.1, r.2.2)
    | .stop tr => (tr, stack, .stopped)
    | .raised tr ex => (tr, stack, .raised ex)

/-- `AsyncExitStack.__aexit__`: exit every entered scope in reverse order of
entry (most recent first).  Each exit observes the currently pending
exception; a suppressing exit clears it for the remaining exits. -/
def unwindStack : List CM → Option Exc → List TraceEv × Option Exc
  | [], ex => ([], ex)
  | cm :: rest, ex =>
    let ex2 : Option Exc :=
      match ex with
      | some e => if cm.suppress e then Option.none else some e
      | Option.none => Option.none
    let r := unwindStack rest ex2
    (.exitScope cm.id ex :: r.1, r.2)

/-- `EventsProcessor.process_event` (lines 71-90): run the loop inside a
fresh exit stack and unwind it on every exit path; return the full trace and
the exception (if any) that reaches the caller. -/
def process_event (e : Event) (handlers : List (HandlerDecl Event)) :
    List TraceEv × Option Exc :=
  let r := processLoop e handlers []
  let exc : Option Exc :=
    match r.2.2 with
    | .raised ex => some ex
    | _ => Option.none
  let u := unwindStack r.2.1 exc
  (r.1 ++ u.1, u.2)

/-- Handler-invocation events of a trace, in order. -/
def handlerCalls (tr : List TraceEv) : List Nat :=
  tr.filterMap fun ev =>
    match ev with
    | .handlerCall i => some i
    | _ => Option.none

/-- Predicate-call events of a trace, in order. -/
def predCallIds (tr : List TraceEv) : List Nat :=
  tr.filterMap fun ev =>
    match ev with
    | .predCall i => some i
    | _ => Option.none

/-- Scope-entry events of a trace, in order. -/
def enterIds (tr : List TraceEv) : List Nat :=
  tr.filterMap fun ev =>
    match ev with
    | .enterScope i => some i
    | _ => Option.none

/-- Scope-exit events of a trace, in order. -/
def exitIds (tr : List TraceEv) : List Nat :=
  tr.filterMap fun ev =>
    match ev with
    | .exitScope i _ => some i
    | _ => Option.none

/-- The identifiers of a middleware stack, most recently entered first. -/
def stackIds (st : List CM) : List Nat :=
  st.map CM.id

/-- Whether a single predicate evaluates to `true` (a raising predicate does
not count as true). -/
def predTrue (p : Pred Event) (e : Event) : Bool :=
  match p.eval e with
  | .ok true => true
  | _ => false

/-- Whether an exception-capable Boolean evaluation returned `true`. -/
def isOkTrue : Except Exc Bool → Bool
  | .ok true => true
  | _ => false

/-- A well-formed decorator stack for one method: no annotations, a single
unconditional annotation, or only conditional (non-empty) annotations. -/
def validCalls (calls : List (List (Pred Event))) : Prop :=
  calls = [] ∨ calls = [[]] ∨ ∀ c ∈ calls, c ≠ []

/-- The attribute state a well-formed decorator stack leaves behind. -/
def specAttr (calls : List (List (Pred Event))) : AttrState Event :=
  if calls.isEmpty then Option.none
  else if calls.any List.isEmpty then some Option.none
  else some (some calls.reverse)

/-- The Handler Registry as the finalization contract describes it,
independently of the decorator state machine: one (Predicate Group Set,
Handler Method) pair per member carrying at least one annotation, in
member-declaration order; an unconditional member gets no group set, and a
conditional member's OR-clauses are its annotation calls in top-to-bottom
source order. -/
def registrySpec : List (List (List (Pred Event)) × Method Event) →
    List (HandlerDecl Event)
  | [] => []
  | cm :: rest =>
    if cm.1.isEmpty then registrySpec rest
    else ⟨cm.2.id,
          if cm.1.any List.isEmpty then Option.none else some cm.1,
          cm.2.run⟩ :: registrySpec rest

/-! Concrete fixtures, with `Nat` as the event type, used to instantiate the
theorems below at explicit inputs. -/

/-- A predicate that holds on every event. -/
def pT : Pred Nat := ⟨21, fun _ => .ok true⟩

/-- A predicate that fails on every event. -/
def pF : Pred Nat := ⟨22, fun _ => .ok false⟩

/-- A predicate that raises exception 9 on every event. -/
def pR : Pred Nat := ⟨23, fun _ => .error 9⟩

/-- A second always-true predicate. -/
def qA : Pred Nat := ⟨31, fun _ => .ok true⟩

/-- A third always-true predicate. -/
def qB : Pred Nat := ⟨32, fun _ => .ok true⟩

/-- A plain method body returning Python `None`. -/
def mA : Method Nat := ⟨40, fun _ => .ok (.sync .none)⟩

/-- A context manager, id 10, entering normally, suppressing nothing. -/
def cmNoSup : CM := ⟨10, Option.none, fun _ => false⟩

/-- A context manager, id 11, entering normally, suppressing everything. -/
def cmSup : CM := ⟨11, Option.none, fun _ => true⟩

/-- An unconditional handler, id 1, returning `None` (falsy: stops). -/
def stopH : HandlerDecl Nat := ⟨1, Option.none, fun _ => .ok (.sync .none)⟩

/-- An unconditional handler, id 2, returning `True`. -/
def uncondH : HandlerDecl Nat := ⟨2, Option.none, fun _ => .ok (.sync (.bool true))⟩

/-- An unconditional middleware, id 3, returning the sync scope `cmNoSup`. -/
def mw1 : HandlerDecl Nat := ⟨3, Option.none, fun _ => .ok (.sync (.syncCM cmNoSup))⟩

/-- An unconditional middleware, id 4, returning the sync scope `cmSup`. -/
def mw2 : HandlerDecl Nat := ⟨4, Option.none, fun _ => .ok (.sync (.syncCM cmSup))⟩

/-- An unconditional handler, id 5, raising exception 7. -/
def raiser : HandlerDecl Nat := ⟨5, Option.none, fun _ => .error 7⟩

/-- An unconditional handler, id 6, whose coroutine resolves to a sync
context-manager object. -/
def coroCMH : HandlerDecl Nat :=
  ⟨6, Option.none, fun _ => .ok (.coro (.ok (.syncCM cmNoSup)))⟩

/-- A conditional handler, id 7, with group set `[[pF], [pT]]`. -/
def condH : HandlerDecl Nat :=
  ⟨7, some [[pF], [pT]], fun _ => .ok (.sync (.bool true))⟩

/-- A second plain method body, returning `True`. -/
def mB : Method Nat := ⟨41, fun _ => .ok (.sync (.bool true))⟩

end Aioevproc

namespace Aioevproc

variable {Event : Type}

@[simp] lemma handlerCalls_nil : handlerCalls [] = [] := rfl

@[simp] lemma handlerCalls_cons_pred (i : Nat) (tr : List TraceEv) :
    handlerCalls (.predCall i :: tr) = handlerCalls tr := rfl

@[simp] lemma handlerCalls_cons_handler (i : Nat) (tr : List TraceEv) :
    handlerCalls (.handlerCall i :: tr) = i :: handlerCalls tr := rfl

@[simp] lemma handlerCalls_cons_enter (i : Nat) (tr : List TraceEv) :
    handlerCalls (.enterScope i :: tr) = handlerCalls tr := rfl

@[simp] lemma handlerCalls_cons_exit (i : Nat) (o : Option Exc)
    (tr : List TraceEv) :
    handlerCalls (.exitScope i o :: tr) = handlerCalls tr := rfl

@[simp] lemma handlerCalls_append (l1 l2 : List TraceEv) :
    handlerCalls (l1 ++ l2) = handlerCalls l1 ++ handlerCalls l2 :=
  List.filterMap_append l1 l2 _

@[simp] lemma enterIds_nil : enterIds [] = [] := rfl

@[simp] lemma enterIds_cons_pred (i : Nat) (tr : List TraceEv) :
    enterIds (.predCall i :: tr) = enterIds tr := rfl

@[simp] lemma enterIds_cons_handler (i : Nat) (tr : List TraceEv) :
    enterIds (.handlerCall i :: tr) = enterIds tr := rfl

@[simp] lemma enterIds_cons_enter (i : Nat) (tr : List TraceEv) :
    enterIds (.enterScope i :: tr) = i :: enterIds tr := rfl

@[simp] lemma enterIds_cons_exit (i : Nat) (o : Option Exc)
    (tr : List TraceEv) :
    enterIds (.exitScope i o :: tr) = enterIds tr := rfl

@[simp] lemma enterIds_append (l1 l2 : List TraceEv) :
    enterIds (l1 ++ l2) = enterIds l1 ++ enterIds l2 :=
  List.filterMap_append l1 l2 _

@[simp] lemma exitIds_nil : exitIds [] = [] := rfl

@[simp] lemma exitIds_cons_pred (i : Nat) (tr : List TraceEv) :
    exitIds (.predCall i :: tr) = exitIds tr := rfl

@[simp] lemma exitIds_cons_handler (i : Nat) (tr : List TraceEv) :
    exitIds (.handlerCall i :: tr) = exitIds tr := rfl

@[simp] lemma exitIds_cons_enter (i : Nat) (tr : List TraceEv) :
    exitIds (.enterScope i :: tr) = exitIds tr := rfl

@[simp] lemma exitIds_cons_exit (i : Nat) (o : Option Exc)
    (tr : List TraceEv) :
    exitIds (.exitScope i o :: tr) = i :: exitIds tr := rfl

@[simp] lemma exitIds_append (l1 l2 : List TraceEv) :
    exitIds (l1 ++ l2) = exitIds l1 ++ exitIds l2 :=
  List.filterMap_append l1 l2 _

lemma evalAnd_mem (e : Event) (c : List (Pred Event)) :
    ∀ ev ∈ (evalAnd e c).1, ∃ i, ev = TraceEv.predCall i := by
  induction c with
  | nil => simp [evalAnd]
  | cons p ps ih =>
    intro ev hev
    cases hp : p.eval e with
    | error ex =>
      simp [evalAnd, hp] at hev
      exact ⟨p.id, hev⟩
    | ok b =>
      cases b with
      | false =>
        simp [evalAnd, hp] at hev
        exact ⟨p.id, hev⟩
      | true =>
        simp [evalAnd, hp] at hev
        rcases hev with h | h
        · exact ⟨p.id, h⟩
        · exact ih ev h

lemma evalOr_mem (e : Event) (gs : List (List (Pred Event))) :
    ∀ ev ∈ (evalOr e gs).1, ∃ i, ev = TraceEv.predCall i := by
  induction gs with
  | nil => simp [evalOr]
  | cons c cs ih =>
    intro ev hev
    cases har : (evalAnd e c).2 with
    | error ex =>
      simp [evalOr, har] at hev
      exact evalAnd_mem e c ev hev
    | ok b =>
      cases b with
      | true =>
        simp [evalOr, har] at hev
        exact evalAnd_mem e c ev hev
      | false =>
        simp [evalOr, har] at hev
        rcases hev with h | h
        · exact evalAnd_mem e c ev h
        · exact ih ev h

lemma predOnly_extractors (tr : List TraceEv)
    (hpred : ∀ ev ∈ tr, ∃ i, ev = TraceEv.predCall i) :
    handlerCalls tr = [] ∧ enterIds tr = [] ∧ exitIds tr = [] := by
  induction tr with
  | nil => simp
  | cons ev tr ih =>
    obtain ⟨i, rfl⟩ := hpred ev (List.mem_cons_self ev tr)
    have := ih fun ev h => hpred ev (List.mem_cons_of_mem _ h)
    simpa using this

lemma evalAnd_ok_true_all (e : Event) (c : List (Pred Event))
    (h : (evalAnd e c).2 = Except.ok true) :
    ∀ q ∈ c, q.eval e = Except.ok true := by
  induction c with
  | nil => simp
  | cons p ps ih =>
    cases hp : p.eval e with
    | error ex => simp [evalAnd, hp] at h
    | ok b =>
      cases b with
      | false => simp [evalAnd, hp] at h
      | true =>
        simp [evalAnd, hp] at h
        intro q hq
        rcases List.mem_cons.mp hq with rfl | hq
        · exact hp
        · exact ih h q hq

lemma evalAnd_ok_false_all (e : Event) (c : List (Pred Event))
    (h : (evalAnd e c).2 = Except.ok false) :
    c.all (fun q => predTrue q e) = false := by
  induction c with
  | nil => simp [evalAnd] at h
  | cons p ps ih =>
    cases hp : p.eval e with
    | error ex => simp [evalAnd, hp] at h
    | ok b =>
      cases b with
      | false => simp [predTrue, hp]
      | true =>
        simp [evalAnd, hp] at h
        rw [List.all_cons, ih h, Bool.and_false]

lemma evalAnd_all_true (e : Event) (c : List (Pred Event))
    (h : ∀ q ∈ c, q.eval e = Except.ok true) :
    evalAnd e c = (c.map fun q => TraceEv.predCall q.id, Except.ok true) := by
  induction c with
  | nil => simp [evalAnd]
  | cons p ps ih =>
    have hp := h p (List.mem_cons_self p ps)
    have hps := ih fun q hq => h q (List.mem_cons_of_mem _ hq)
    simp [evalAnd, hp, hps]

lemma evalAnd_first_false (e : Event) (c1 : List (Pred Event))
    (p : Pred Event) (c2 : List (Pred Event))
    (h1 : ∀ q ∈ c1, q.eval e = Except.ok true)
    (hp : p.eval e = Except.ok false) :
    evalAnd e (c1 ++ p :: c2) =
      ((c1 ++ [p]).map fun q => TraceEv.predCall q.id, Except.ok false) := by
  induction c1 with
  | nil => simp [evalAnd, hp]
  | cons q c1 ih =>
    have hq := h1 q (List.mem_cons_self q c1)
    have h1' := ih fun r hr => h1 r (List.mem_cons_of_mem _ hr)
    simp [evalAnd, hq, h1']

lemma evalOr_ok_any (e : Event) (gs : List (List (Pred Event))) (b : Bool)
    (h : (evalOr e gs).2 = Except.ok b) :
    b = gs.any fun c => c.all fun q => predTrue q e := by
  induction gs with
  | nil =>
    simp [evalOr] at h
    simp [h]
  | cons c cs ih =>
    cases har : (evalAnd e c).2 with
    | error ex => simp [evalOr, har] at h
    | ok bc =>
      cases bc with
      | true =>
        simp [evalOr, har] at h
        have hall : c.all (fun q => predTrue q e) = true := by
          rw [List.all_eq_true]
          intro q hq
          simp [predTrue, evalAnd_ok_true_all e c har q hq]
        simp [← h, hall]
      | false =>
        simp only [evalOr, har] at h
        have := ih h
        simp [this, evalAnd_ok_false_all e c har]

lemma evalOr_first_match (e : Event) (g1 : List (List (Pred Event)))
    (g : List (Pred Event)) (g2 : List (List (Pred Event)))
    (h1 : ∀ c ∈ g1, (evalAnd e c).2 = Except.ok false)
    (hg : (evalAnd e g).2 = Except.ok true) :
    evalOr e (g1 ++ g :: g2) =
      ((g1.map fun c => (evalAnd e c).1).flatten ++ (evalAnd e g).1,
        Except.ok true) := by
  induction g1 with
  | nil => simp [evalOr, hg]
  | cons c g1 ih =>
    have hc := h1 c (List.mem_cons_self c g1)
    have h1' := ih fun d hd => h1 d (List.mem_cons_of_mem _ hd)
    simp [evalOr, hc, h1']

lemma invokeHandler_handlerCalls (e : Event) (h : HandlerDecl Event)
    (st : List CM) (trP : List TraceEv) :
    handlerCalls (invokeHandler e h st trP).trace =
      handlerCalls trP ++ [h.id] := by
  cases hr : h.run e with
  | error ex => simp [invokeHandler, hr, StepRes.trace]
  | ok rv =>
    cases rv with
    | coro r =>
      cases r with
      | error ex => simp [invokeHandler, hr, StepRes.trace]
      | ok v =>
        by_cases hv : v.truthy <;>
          simp [invokeHandler, hr, hv, StepRes.trace]
    | sync v =>
      cases v with
      | syncCM cm =>
        cases hcm : cm.enterExc <;>
          simp [invokeHandler, hr, enterCM, hcm, StepRes.trace]
      | asyncCM cm =>
        cases hcm : cm.enterExc <;>
          simp [invokeHandler, hr, enterCM, hcm, StepRes.trace]
      | none => simp [invokeHandler, hr, PyVal.truthy, StepRes.trace]
      | bool b =>
        cases b <;> simp [invokeHandler, hr, PyVal.truthy, StepRes.trace]
      | int n =>
        by_cases hn : (n != 0) = true <;>
          simp [invokeHandler, hr, PyVal.truthy, hn, StepRes.trace]
      | str s =>
        by_cases hs : (s != "") = true <;>
          simp [invokeHandler, hr, PyVal.truthy, hs, StepRes.trace]
      | list l =>
        by_cases hl : l.isEmpty <;>
          simp [invokeHandler, hr, PyVal.truthy, hl, StepRes.trace]

lemma runDecl_handlerCalls_none (e : Event) (h : HandlerDecl Event)
    (st : List CM) (hg : h.groups = Option.none) :
    handlerCalls (runDecl e h st).trace = [h.id] := by
  simp [runDecl, hg, invokeHandler_handlerCalls]

lemma runDecl_handlerCalls_some (e : Event) (h : HandlerDecl Event)
    (st : List CM) (gs : List (List (Pred Event))) (hg : h.groups = some gs) :
    handlerCalls (runDecl e h st).trace =
      (if isOkTrue (evalOr e gs).2 then [h.id] else []) := by
  have hnil := (predOnly_extractors _ (evalOr_mem e gs)).1
  cases har : (evalOr e gs).2 with
  | error ex => simp [runDecl, hg, har, StepRes.trace, hnil, isOkTrue]
  | ok b =>
    cases b with
    | false => simp [runDecl, hg, har, StepRes.trace, hnil, isOkTrue]
    | true =>
      simp [runDecl, hg, har, invokeHandler_handlerCalls, hnil, isOkTrue]

/-- Claim C1: absence of a Predicate Group Set matches unconditionally (the
handler is invoked); with a group set present the handler is invoked iff the
OR-evaluation returns true; a returned Boolean equals the "some AND-clause
has every predicate true" semantics; AND-clause predicates are evaluated
left to right and none is called past the first returning false; and no
further AND-clause is evaluated after the first matching one. -/
theorem c1_predicate_group_matching (e : Event) (h : HandlerDecl Event)
    (st : List CM) :
    (h.groups = Option.none →
      handlerCalls (runDecl e h st).trace = [h.id]) ∧
    (∀ gs, h.groups = some gs →
      handlerCalls (runDecl e h st).trace =
        (if isOkTrue (evalOr e gs).2 then [h.id] else [])) ∧
    (∀ gs b, (evalOr e gs).2 = Except.ok b →
      b = gs.any fun c => c.all fun q => predTrue q e) ∧
    (∀ (c1 : List (Pred Event)) (p : Pred Event) (c2 : List (Pred Event)),
      (∀ q ∈ c1, q.eval e = Except.ok true) → p.eval e = Except.ok false →
      evalAnd e (c1 ++ p :: c2) =
        ((c1 ++ [p]).map fun q => TraceEv.predCall q.id, Except.ok false)) ∧
    (∀ c : List (Pred Event), (∀ q ∈ c, q.eval e = Except.ok true) →
      evalAnd e c = (c.map fun q => TraceEv.predCall q.id, Except.ok true)) ∧
    (∀ (g1 : List (List (Pred Event))) (g : List (Pred Event)) g2,
      (∀ c ∈ g1, (evalAnd e c).2 = Except.ok false) →
      (evalAnd e g).2 = Except.ok true →
      evalOr e (g1 ++ g :: g2) =
        ((g1.map fun c => (evalAnd e c).1).flatten ++ (evalAnd e g).1,
          Except.ok true)) := by
  refine ⟨runDecl_handlerCalls_none e h st,
    fun gs => runDecl_handlerCalls_some e h st gs,
    fun gs b => evalOr_ok_any e gs b,
    fun c1 p c2 => evalAnd_first_false e c1 p c2,
    fun c => evalAnd_all_true e c,
    fun g1 g g2 => evalOr_first_match e g1 g g2⟩

/-- Witness for C1 at a concrete input: the always-true `pT` first, the
always-false `pF` second; the third predicate `pR` is never called and the
AND-clause fails. -/
theorem c1_wit :
    pT.eval 0 = Except.ok true ∧ pF.eval 0 = Except.ok false ∧
    evalAnd 0 [pT, pF, pR] =
      ([TraceEv.predCall 21, TraceEv.predCall 22], Except.ok false) := by
  have hq : ∀ q ∈ [pT], q.eval 0 = Except.ok true := by
    intro q hq
    simp only [List.mem_singleton] at hq
    subst hq
    rfl
  have h := (c1_predicate_group_matching (0 : Nat) condH []).2.2.2.1
      [pT] pF [pR] hq rfl
  exact ⟨rfl, rfl, h⟩

/-- Claim C2: an awaited coroutine's resolved value is the continuation flag
(falsy, including absent, stops); a plain non-context-manager value is the
continuation flag; a context manager (sync or async) is entered and dispatch
always continues; and once a declaration stops, the loop ends with no
further declaration executing. -/
theorem c2_continuation_decision (e : Event) (h : HandlerDecl Event)
    (st : List CM) (trP : List TraceEv) :
    (∀ v, h.run e = Except.ok (RetVal.coro (Except.ok v)) →
      invokeHandler e h st trP =
        (if v.truthy then StepRes.cont (trP ++ [TraceEv.handlerCall h.id]) st
         else StepRes.stop (trP ++ [TraceEv.handlerCall h.id]))) ∧
    (∀ v, h.run e = Except.ok (RetVal.sync v) → v.isCMVal = false →
      invokeHandler e h st trP =
        (if v.truthy then StepRes.cont (trP ++ [TraceEv.handlerCall h.id]) st
         else StepRes.stop (trP ++ [TraceEv.handlerCall h.id]))) ∧
    (∀ cm, h.run e = Except.ok (RetVal.sync (PyVal.syncCM cm)) →
      cm.enterExc = Option.none →
      invokeHandler e h st trP =
        StepRes.cont
          (trP ++ [TraceEv.handlerCall h.id, TraceEv.enterScope cm.id])
          (cm :: st)) ∧
    (∀ cm, h.run e = Except.ok (RetVal.sync (PyVal.asyncCM cm)) →
      cm.enterExc = Option.none →
      invokeHandler e h st trP =
        StepRes.cont
          (trP ++ [TraceEv.handlerCall h.id, TraceEv.enterScope cm.id])
          (cm :: st)) ∧
    PyVal.truthy PyVal.none = false ∧
    (∀ (tr : List TraceEv) (rest : List (HandlerDecl Event)),
      runDecl e h st = StepRes.stop tr →
      processLoop e (h :: rest) st = (tr, st, LoopExit.stopped)) := by
  refine ⟨?_, ?_, ?_, ?_, rfl, ?_⟩
  · intro v hr
    by_cases hv : v.truthy <;> simp [invokeHandler, hr, hv]
  · intro v hr hcm
    cases v with
    | none => simp [invokeHandler, hr, PyVal.truthy]
    | bool b => cases b <;> simp [invokeHandler, hr, PyVal.truthy]
    | int n =>
      by_cases hn : ((n != 0) = true) <;>
        simp [invokeHandler, hr, PyVal.truthy, hn]
    | str s =>
      by_cases hs : ((s != "") = true) <;>
        simp [invokeHandler, hr, PyVal.truthy, hs]
    | list l =>
      by_cases hl : (l.isEmpty = true) <;>
        simp [invokeHandler, hr, PyVal.truthy, hl]
    | syncCM cm => simp [PyVal.isCMVal] at hcm
    | asyncCM cm => simp [PyVal.isCMVal] at hcm
  · intro cm hr hcm
    simp [invokeHandler, hr, enterCM, hcm]
  · intro cm hr hcm
    simp [invokeHandler, hr, enterCM, hcm]
  · intro tr rest hstop
    simp [processLoop, hstop]

/-- Witness for C2 at a concrete input: the middleware handler `mw1` returns
the sync scope `cmNoSup`, which is entered and dispatch continues. -/
theorem c2_wit :
    mw1.run 0 = Except.ok (RetVal.sync (PyVal.syncCM cmNoSup)) ∧
    cmNoSup.enterExc = Option.none ∧
    invokeHandler 0 mw1 [] [] =
      StepRes.cont [TraceEv.handlerCall 3, TraceEv.enterScope 10]
        [cmNoSup] :=
  ⟨rfl, rfl,
    (c2_continuation_decision (0 : Nat) mw1 [] []).2.2.1 cmNoSup rfl rfl⟩

/-- Claim C9: a handler whose invocation returns a coroutine has its resolved
value used only as the continuation flag; it is never entered as a
middleware scope, even when the resolved value is itself a context-manager
object (then truthiness makes dispatch continue). -/
theorem c9_coroutine_never_middleware (e : Event) (h : HandlerDecl Event)
    (st : List CM) (trP : List TraceEv) (v : PyVal)
    (hr : h.run e = Except.ok (RetVal.coro (Except.ok v))) :
    invokeHandler e h st trP =
      (if v.truthy then StepRes.cont (trP ++ [TraceEv.handlerCall h.id]) st
       else StepRes.stop (trP ++ [TraceEv.handlerCall h.id])) ∧
    enterIds (invokeHandler e h st trP).trace = enterIds trP ∧
    (∀ cm, v = PyVal.syncCM cm ∨ v = PyVal.asyncCM cm →
      invokeHandler e h st trP =
        StepRes.cont (trP ++ [TraceEv.handlerCall h.id]) st) := by
  have key : invokeHandler e h st trP =
      (if v.truthy then StepRes.cont (trP ++ [TraceEv.handlerCall h.id]) st
       else StepRes.stop (trP ++ [TraceEv.handlerCall h.id])) := by
    by_cases hv : v.truthy <;> simp [invokeHandler, hr, hv]
  refine ⟨key, ?_, ?_⟩
  · rw [key]
    by_cases hv : v.truthy <;> simp [hv, StepRes.trace]
  · rintro cm (rfl | rfl) <;> simp [invokeHandler, hr, PyVal.truthy]

/-- Witness for C9 at a concrete input: `coroCMH`'s coroutine resolves to the
context-manager object `cmNoSup`; no scope is entered, dispatch continues. -/
theorem c9_wit :
    coroCMH.run 0 =
      Except.ok (RetVal.coro (Except.ok (PyVal.syncCM cmNoSup))) ∧
    invokeHandler 0 coroCMH [] [] =
      StepRes.cont [TraceEv.handlerCall 6] [] :=
  ⟨rfl,
    (c9_coroutine_never_middleware (0 : Nat) coroCMH [] []
      (PyVal.syncCM cmNoSup) rfl).2.2 cmNoSup (Or.inl rfl)⟩

/-- Claim C10: the stop condition is general Python truthiness, not just
`False`/`None`: for non-middleware results (plain or coroutine-resolved) the
continuation flag is the value's truthiness, and 0, the empty string and the
empty list are falsy while non-empty values are truthy. -/
theorem c10_general_truthiness (e : Event) (h : HandlerDecl Event)
    (st : List CM) (trP : List TraceEv) :
    (∀ v, h.run e = Except.ok (RetVal.sync v) → v.isCMVal = false →
      invokeHandler e h st trP =
        (if v.truthy then StepRes.cont (trP ++ [TraceEv.handlerCall h.id]) st
         else StepRes.stop (trP ++ [TraceEv.handlerCall h.id]))) ∧
    (∀ v, h.run e = Except.ok (RetVal.coro (Except.ok v)) →
      invokeHandler e h st trP =
        (if v.truthy then StepRes.cont (trP ++ [TraceEv.handlerCall h.id]) st
         else StepRes.stop (trP ++ [TraceEv.handlerCall h.id]))) ∧
    PyVal.truthy (PyVal.int 0) = false ∧
    PyVal.truthy (PyVal.str "") = false ∧
    PyVal.truthy (PyVal.list []) = false ∧
    PyVal.truthy (PyVal.bool false) = false ∧
    PyVal.truthy PyVal.none = false ∧
    PyVal.truthy (PyVal.int 5) = true ∧
    PyVal.truthy (PyVal.str "x") = true ∧
    PyVal.truthy (PyVal.list [PyVal.none]) = true ∧
    PyVal.truthy (PyVal.bool true) = true := by
  refine ⟨?_, ?_, by decide, by decide, by decide, by decide, by decide,
    by decide, by decide, by decide, by decide⟩
  · intro v hr hcm
    cases v with
    | none => simp [invokeHandler, hr, PyVal.truthy]
    | bool b => cases b <;> simp [invokeHandler, hr, PyVal.truthy]
    | int n =>
      by_cases hn : ((n != 0) = true) <;>
        simp [invokeHandler, hr, PyVal.truthy, hn]
    | str s =>
      by_cases hs : ((s != "") = true) <;>
        simp [invokeHandler, hr, PyVal.truthy, hs]
    | list l =>
      by_cases hl : (l.isEmpty = true) <;>
        simp [invokeHandler, hr, PyVal.truthy, hl]
    | syncCM cm => simp [PyVal.isCMVal] at hcm
    | asyncCM cm => simp [PyVal.isCMVal] at hcm
  · intro v hr
    by_cases hv : v.truthy <;> simp [invokeHandler, hr, hv]

/-- Witness for C10 at a concrete input: `stopH` returns Python `None`,
which is falsy, so the declaration stops dispatch. -/
theorem c10_wit :
    stopH.run 0 = Except.ok (RetVal.sync PyVal.none) ∧
    PyVal.isCMVal PyVal.none = false ∧
    invokeHandler 0 stopH [] [] = StepRes.stop [TraceEv.handlerCall 1] :=
  ⟨rfl, rfl,
    (c10_general_truthiness (0 : Nat) stopH [] []).1 PyVal.none rfl rfl⟩


@[simp] lemma stackIds_nil : stackIds [] = [] := rfl

@[simp] lemma stackIds_cons (cm : CM) (st : List CM) :
    stackIds (cm :: st) = cm.id :: stackIds st := rfl

@[simp] lemma stackIds_append (a b : List CM) :
    stackIds (a ++ b) = stackIds a ++ stackIds b :=
  List.map_append CM.id a b

lemma evalOr_enterIds (e : Event) (gs : List (List (Pred Event))) :
    enterIds (evalOr e gs).1 = [] :=
  (predOnly_extractors _ (evalOr_mem e gs)).2.1

lemma evalOr_exitIds (e : Event) (gs : List (List (Pred Event))) :
    exitIds (evalOr e gs).1 = [] :=
  (predOnly_extractors _ (evalOr_mem e gs)).2.2

lemma runDecl_cont_stack (e : Event) (h : HandlerDecl Event) (st : List CM)
    (tr : List TraceEv) (st2 : List CM)
    (heq : runDecl e h st = StepRes.cont tr st2) :
    ∃ new, st2 = new ++ st ∧ stackIds new = (enterIds tr).reverse := by
  simp only [runDecl, invokeHandler, enterCM] at heq
  repeat' split at heq
  all_goals cases heq
  all_goals
    first
      | exact ⟨[], rfl, by simp [evalOr_enterIds]⟩
      | exact ⟨[_], rfl, by simp [evalOr_enterIds]⟩

lemma runDecl_stop_enterIds (e : Event) (h : HandlerDecl Event) (st : List CM)
    (tr : List TraceEv) (heq : runDecl e h st = StepRes.stop tr) :
    enterIds tr = [] := by
  simp only [runDecl, invokeHandler, enterCM] at heq
  repeat' split at heq
  all_goals cases heq
  all_goals simp [evalOr_enterIds]

lemma runDecl_raised_enterIds (e : Event) (h : HandlerDecl Event)
    (st : List CM) (tr : List TraceEv) (ex : Exc)
    (heq : runDecl e h st = StepRes.raised tr ex) :
    enterIds tr = [] := by
  simp only [runDecl, invokeHandler, enterCM] at heq
  repeat' split at heq
  all_goals cases heq
  all_goals simp [evalOr_enterIds]

lemma runDecl_exitIds (e : Event) (h : HandlerDecl Event) (st : List CM) :
    exitIds (runDecl e h st).trace = [] := by
  simp only [runDecl, invokeHandler, enterCM]
  repeat' split
  all_goals simp [StepRes.trace, evalOr_exitIds]

lemma runDecl_handlerCalls_cases (e : Event) (h : HandlerDecl Event)
    (st : List CM) :
    handlerCalls (runDecl e h st).trace = [] ∨
      handlerCalls (runDecl e h st).trace = [h.id] := by
  cases hg : h.groups with
  | none => exact Or.inr (runDecl_handlerCalls_none e h st hg)
  | some gs =>
    rw [runDecl_handlerCalls_some e h st gs hg]
    by_cases hm : isOkTrue (evalOr e gs).2 = true <;> simp [hm]

lemma processLoop_stack (e : Event) :
    ∀ (hs : List (HandlerDecl Event)) (st : List CM),
    ∃ new, (processLoop e hs st).2.1 = new ++ st ∧
      stackIds new = (enterIds (processLoop e hs st).1).reverse := by
  intro hs
  induction hs with
  | nil => exact fun st => ⟨[], rfl, by simp [processLoop]⟩
  | cons h rest ih =>
    intro st
    cases hd : runDecl e h st with
    | cont tr st2 =>
      obtain ⟨new1, rfl, hn1⟩ := runDecl_cont_stack e h st tr st2 hd
      obtain ⟨new2, h2, hn2⟩ := ih (new1 ++ st)
      refine ⟨new2 ++ new1, ?_, ?_⟩
      · simp [processLoop, hd, h2]
      · simp [processLoop, hd, hn2, hn1]
    | stop tr =>
      have hni := runDecl_stop_enterIds e h st tr hd
      exact ⟨[], by simp [processLoop, hd], by simp [processLoop, hd, hni]⟩
    | raised tr ex =>
      have hni := runDecl_raised_enterIds e h st tr ex hd
      exact ⟨[], by simp [processLoop, hd], by simp [processLoop, hd, hni]⟩

lemma processLoop_exitIds (e : Event) :
    ∀ (hs : List (HandlerDecl Event)) (st : List CM),
    exitIds (processLoop e hs st).1 = [] := by
  intro hs
  induction hs with
  | nil => intro st; simp [processLoop]
  | cons h rest ih =>
    intro st
    have hx := runDecl_exitIds e h st
    cases hd : runDecl e h st with
    | cont tr st2 =>
      rw [hd] at hx
      simp only [StepRes.trace] at hx
      simp [processLoop, hd, hx, ih st2]
    | stop tr =>
      rw [hd] at hx
      simp only [StepRes.trace] at hx
      simp [processLoop, hd, hx]
    | raised tr ex =>
      rw [hd] at hx
      simp only [StepRes.trace] at hx
      simp [processLoop, hd, hx]

lemma processLoop_sublist (e : Event) :
    ∀ (hs : List (HandlerDecl Event)) (st : List CM),
    (handlerCalls (processLoop e hs st).1).Sublist
      (hs.map HandlerDecl.id) := by
  intro hs
  induction hs with
  | nil => intro st; simp [processLoop]
  | cons h rest ih =>
    intro st
    have hc := runDecl_handlerCalls_cases e h st
    cases hd : runDecl e h st with
    | cont tr st2 =>
      rw [hd] at hc
      simp only [StepRes.trace] at hc
      rcases hc with hc | hc
      · simpa [processLoop, hd, hc] using (ih st2).cons h.id
      · simpa [processLoop, hd, hc] using (ih st2).cons₂ h.id
    | stop tr =>
      rw [hd] at hc
      simp only [StepRes.trace] at hc
      rcases hc with hc | hc
      · simp [processLoop, hd, hc]
      · simp [processLoop, hd, hc]
    | raised tr ex =>
      rw [hd] at hc
      simp only [StepRes.trace] at hc
      rcases hc with hc | hc
      · simp [processLoop, hd, hc]
      · simp [processLoop, hd, hc]

lemma processLoop_append (e : Event) :
    ∀ (hs1 hs2 : List (HandlerDecl Event)) (st : List CM),
    (processLoop e hs1 st).2.2 = LoopExit.normal →
    processLoop e (hs1 ++ hs2) st =
      ((processLoop e hs1 st).1 ++
          (processLoop e hs2 (processLoop e hs1 st).2.1).1,
        (processLoop e hs2 (processLoop e hs1 st).2.1).2) := by
  intro hs1
  induction hs1 with
  | nil => intro hs2 st _; simp [processLoop]
  | cons h rest ih =>
    intro hs2 st hnorm
    cases hd : runDecl e h st with
    | cont tr st2 =>
      have hnorm2 : (processLoop e rest st2).2.2 = LoopExit.normal := by
        simpa [processLoop, hd] using hnorm
      simp [processLoop, hd, ih hs2 st2 hnorm2]
    | stop tr => simp [processLoop, hd] at hnorm
    | raised tr ex => simp [processLoop, hd] at hnorm

lemma processLoop_count_zero (e : Event) (hs : List (HandlerDecl Event))
    (st : List CM) (i : Nat) (hid : ∀ d ∈ hs, d.id ≠ i) :
    (handlerCalls (processLoop e hs st).1).count i = 0 := by
  rw [List.count_eq_zero]
  intro hmem
  have hin := (processLoop_sublist e hs st).subset hmem
  rw [List.mem_map] at hin
  obtain ⟨d, hdmem, hdid⟩ := hin
  exact hid d hdmem hdid

lemma unwindStack_exitIds :
    ∀ (st : List CM) (ex : Option Exc),
    exitIds (unwindStack st ex).1 = stackIds st := by
  intro st
  induction st with
  | nil => intro ex; simp [unwindStack]
  | cons cm rest ih => intro ex; simp [unwindStack, ih]

lemma unwindStack_enterIds :
    ∀ (st : List CM) (ex : Option Exc),
    enterIds (unwindStack st ex).1 = [] := by
  intro st
  induction st with
  | nil => intro ex; simp [unwindStack]
  | cons cm rest ih => intro ex; simp [unwindStack, ih]

lemma unwindStack_handlerCalls :
    ∀ (st : List CM) (ex : Option Exc),
    handlerCalls (unwindStack st ex).1 = [] := by
  intro st
  induction st with
  | nil => intro ex; simp [unwindStack]
  | cons cm rest ih => intro ex; simp [unwindStack, ih]

lemma unwindStack_none :
    ∀ st : List CM,
    unwindStack st Option.none =
      (st.map fun cm => TraceEv.exitScope cm.id Option.none, Option.none) := by
  intro st
  induction st with
  | nil => rfl
  | cons cm rest ih => simp [unwindStack, ih]

lemma unwindStack_nosup :
    ∀ (st : List CM) (ex : Exc),
    (∀ cm ∈ st, cm.suppress ex = false) →
    unwindStack st (some ex) =
      (st.map fun cm => TraceEv.exitScope cm.id (some ex), some ex) := by
  intro st ex
  induction st with
  | nil => intro _; rfl
  | cons cm rest ih =>
    intro h
    have hcm := h cm (List.mem_cons_self cm rest)
    have ihr := ih fun d hd => h d (List.mem_cons_of_mem _ hd)
    simp [unwindStack, hcm, ihr]

lemma unwindStack_sup :
    ∀ (a : List CM) (s : CM) (b : List CM) (ex : Exc),
    (∀ cm ∈ a, cm.suppress ex = false) → s.suppress ex = true →
    unwindStack (a ++ s :: b) (some ex) =
      ((a.map fun cm => TraceEv.exitScope cm.id (some ex)) ++
        TraceEv.exitScope s.id (some ex) ::
          (b.map fun cm => TraceEv.exitScope cm.id Option.none),
        Option.none) := by
  intro a s b ex
  induction a with
  | nil =>
    intro _ hs
    simp [unwindStack, hs, unwindStack_none b]
  | cons cm a ih =>
    intro ha hs
    have hcm := ha cm (List.mem_cons_self cm a)
    have ihr := ih (fun d hd => ha d (List.mem_cons_of_mem _ hd)) hs
    simp [unwindStack, hcm, ihr]


lemma process_event_sublist (e : Event) (hs : List (HandlerDecl Event)) :
    (handlerCalls (process_event e hs).1).Sublist
      (hs.map HandlerDecl.id) := by
  simp [process_event, unwindStack_handlerCalls]
  exact processLoop_sublist e hs []

/-- Claim C3: in every call to `process_event` — whether the loop completes
normally, stops early, or an exception propagates from a predicate, a
handler or a middleware entry — the scopes exited are exactly the scopes
entered, in strict reverse order of entry, before control returns. -/
theorem c3_middleware_unwound_in_reverse (e : Event)
    (hs : List (HandlerDecl Event)) :
    exitIds (process_event e hs).1 =
      (enterIds (process_event e hs).1).reverse := by
  obtain ⟨new, hstack, hids⟩ := processLoop_stack e hs []
  simp [process_event, processLoop_exitIds, unwindStack_exitIds,
    unwindStack_enterIds, hstack, hids]

/-- Counterexample to C4 as stated: with stack `[cmSup, cmNoSup]` entered and
handler id 5 raising exception 7, the inner scope (id 11) suppresses it, so
the outer currently-entered scope (id 10) exits observing no exception at
all — not "that exception" — and the caller sees no error. -/
theorem c4_counterexample :
    process_event 0 [mw1, mw2, raiser] =
      ([TraceEv.handlerCall 3, TraceEv.enterScope 10, TraceEv.handlerCall 4,
        TraceEv.enterScope 11, TraceEv.handlerCall 5,
        TraceEv.exitScope 11 (some 7), TraceEv.exitScope 10 Option.none],
        Option.none) ∧
    TraceEv.exitScope 10 (some 7) ∉ (process_event 0 [mw1, mw2, raiser]).1 :=
  ⟨rfl, by decide⟩

/-- Claim C4 (amended): when the loop propagates an exception with entered
scopes on the stack, every exit up to and including the first suppressing
one observes that exception, scopes exited after a suppression observe no
exception, and `process_event` completes without error iff some entered
scope suppressed it; if none suppresses, exactly that one error reaches the
caller. -/
theorem c4_exception_observation (e : Event) (hs : List (HandlerDecl Event))
    (tr : List TraceEv) (st : List CM) (ex : Exc)
    (hloop : processLoop e hs [] = (tr, st, LoopExit.raised ex)) :
    ((∀ cm ∈ st, cm.suppress ex = false) →
      process_event e hs =
        (tr ++ st.map fun cm => TraceEv.exitScope cm.id (some ex),
          some ex)) ∧
    (∀ (a : List CM) (s : CM) (b : List CM), st = a ++ s :: b →
      (∀ cm ∈ a, cm.suppress ex = false) → s.suppress ex = true →
      process_event e hs =
        (tr ++ ((a.map fun cm => TraceEv.exitScope cm.id (some ex)) ++
          TraceEv.exitScope s.id (some ex) ::
            (b.map fun cm => TraceEv.exitScope cm.id Option.none)),
          Option.none)) := by
  constructor
  · intro hns
    simp [process_event, hloop, unwindStack_nosup st ex hns]
  · rintro a s b rfl ha hsx
    simp [process_event, hloop, unwindStack_sup a s b ex ha hsx]

/-- Witness for C4 at a concrete input: handler id 5 raises exception 7
with `[cmSup, cmNoSup]` entered; `cmSup` suppresses, so `cmNoSup` exits
observing nothing and the caller sees no error. -/
theorem c4_wit :
    processLoop 0 [mw1, mw2, raiser] [] =
      ([TraceEv.handlerCall 3, TraceEv.enterScope 10, TraceEv.handlerCall 4,
        TraceEv.enterScope 11, TraceEv.handlerCall 5],
        [cmSup, cmNoSup], LoopExit.raised 7) ∧
    cmSup.suppress 7 = true ∧
    process_event 0 [mw1, mw2, raiser] =
      ([TraceEv.handlerCall 3, TraceEv.enterScope 10, TraceEv.handlerCall 4,
        TraceEv.enterScope 11, TraceEv.handlerCall 5,
        TraceEv.exitScope 11 (some 7), TraceEv.exitScope 10 Option.none],
        Option.none) := by
  refine ⟨rfl, rfl, ?_⟩
  have h := (c4_exception_observation 0 [mw1, mw2, raiser]
      [TraceEv.handlerCall 3, TraceEv.enterScope 10, TraceEv.handlerCall 4,
        TraceEv.enterScope 11, TraceEv.handlerCall 5]
      [cmSup, cmNoSup] 7 rfl).2 [] cmSup [cmNoSup] rfl
      (by intro cm hcm; simp at hcm) rfl
  simpa using h

/-- Counterexample to C5 as stated: the unconditional handler `uncondH`
(id 2) is never invoked when the earlier unconditional handler `stopH`
returns a falsy value, so "regardless of the other Handler Declarations"
fails. -/
theorem c5_counterexample :
    uncondH.groups = Option.none ∧
    (handlerCalls (process_event 0 [stopH, uncondH]).1).count 2 = 0 :=
  ⟨rfl, rfl⟩

/-- Claim C5 (amended): an unconditional handler is invoked exactly once per
dispatch provided every earlier declaration lets the loop continue (no
earlier falsy handler result and no earlier propagating exception) and its
identity is distinct from the other declarations. -/
theorem c5_unconditional_invoked_once (e : Event)
    (pre post : List (HandlerDecl Event)) (H : HandlerDecl Event)
    (hH : H.groups = Option.none)
    (hid : ∀ d ∈ pre ++ post, d.id ≠ H.id)
    (hpre : (processLoop e pre []).2.2 = LoopExit.normal) :
    (handlerCalls (process_event e (pre ++ H :: post)).1).count H.id = 1 := by
  have hidpre : ∀ d ∈ pre, d.id ≠ H.id :=
    fun d hd => hid d (List.mem_append_left _ hd)
  have hidpost : ∀ d ∈ post, d.id ≠ H.id :=
    fun d hd => hid d (List.mem_append_right _ hd)
  have happ := processLoop_append e pre (H :: post) [] hpre
  have hcount_tail :
      (handlerCalls
        (processLoop e (H :: post) (processLoop e pre []).2.1).1).count
          H.id = 1 := by
    have hcn := runDecl_handlerCalls_none e H (processLoop e pre []).2.1 hH
    cases hd : runDecl e H (processLoop e pre []).2.1 with
    | cont tr st2 =>
      rw [hd] at hcn
      simp only [StepRes.trace] at hcn
      simp [processLoop, hd, hcn, List.count_append,
        processLoop_count_zero e post st2 H.id hidpost]
    | stop tr =>
      rw [hd] at hcn
      simp only [StepRes.trace] at hcn
      simp [processLoop, hd, hcn]
    | raised tr ex =>
      rw [hd] at hcn
      simp only [StepRes.trace] at hcn
      simp [processLoop, hd, hcn]
  have hzero := processLoop_count_zero e pre [] H.id hidpre
  simp [process_event, happ, unwindStack_handlerCalls, List.count_append,
    hzero, hcount_tail]

/-- Witness for C5 (amended) at a concrete input: after the truthy handler
`uncondH`, the unconditional `stopH` (id 1) is invoked exactly once. -/
theorem c5_wit :
    stopH.groups = Option.none ∧
    (processLoop 0 [uncondH] []).2.2 = LoopExit.normal ∧
    (handlerCalls (process_event 0 [uncondH, stopH]).1).count 1 = 1 := by
  refine ⟨rfl, rfl, ?_⟩
  have h := c5_unconditional_invoked_once 0 [uncondH] [] stopH rfl
      (by intro d hd; simp at hd; subst hd; decide) rfl
  simpa using h


lemma applyCalls_acc :
    ∀ (cs l : List (List (Pred Event))),
    (∀ c ∈ cs, c ≠ []) →
    applyCalls cs (some (some l)) = .ok (some (some (l ++ cs))) := by
  intro cs
  induction cs with
  | nil => intro l _; simp [applyCalls]
  | cons c cs ih =>
    intro l h
    have hc := h c (List.mem_cons_self c cs)
    cases c with
    | nil => exact absurd rfl hc
    | cons x xs =>
      have hrec := ih (l ++ [x :: xs]) fun d hd => h d (List.mem_cons_of_mem _ hd)
      simp [applyCalls, handler, hrec]

lemma evalDecorators_nonempty (calls : List (List (Pred Event)))
    (hne : calls ≠ []) (hcond : ∀ c ∈ calls, c ≠ []) :
    evalDecorators calls = .ok (some (some calls.reverse)) := by
  unfold evalDecorators
  cases hrev : calls.reverse with
  | nil => exact absurd (List.reverse_eq_nil_iff.mp hrev) hne
  | cons c cs =>
    have hc : c ≠ [] := hcond c
      (by rw [← List.mem_reverse, hrev]; exact List.mem_cons_self c cs)
    have hcs : ∀ d ∈ cs, d ≠ [] := fun d hd => hcond d
      (by rw [← List.mem_reverse, hrev]; exact List.mem_cons_of_mem _ hd)
    cases c with
    | nil => exact absurd rfl hc
    | cons x xs =>
      have hacc := applyCalls_acc cs [x :: xs] hcs
      simp [applyCalls, handler, hacc, hrev]

lemma applyCalls_err_some_none (c : List (Pred Event))
    (cs : List (List (Pred Event))) :
    applyCalls (c :: cs) (some Option.none) = .error () := by
  cases c <;> rfl

lemma applyCalls_err_mem :
    ∀ (cs l : List (List (Pred Event))),
    [] ∈ cs → applyCalls cs (some (some l)) = .error () := by
  intro cs
  induction cs with
  | nil => intro l h; simp at h
  | cons c cs ih =>
    intro l h
    rcases List.mem_cons.mp h with rfl | hc
    · rfl
    · cases c with
      | nil => rfl
      | cons x xs =>
        simpa [applyCalls, handler] using ih (l ++ [x :: xs]) hc

lemma evalDecorators_mixed (calls : List (List (Pred Event)))
    (hlen : 2 ≤ calls.length) (hmem : [] ∈ calls) :
    evalDecorators calls = .error () := by
  unfold evalDecorators
  have hrmem : ([] : List (Pred Event)) ∈ calls.reverse :=
    List.mem_reverse.mpr hmem
  have hrlen : 2 ≤ calls.reverse.length := by
    rw [List.length_reverse]
    exact hlen
  cases hrev : calls.reverse with
  | nil => rw [hrev] at hrlen; simp at hrlen
  | cons c cs =>
    rw [hrev] at hrmem hrlen
    cases c with
    | nil =>
      cases cs with
      | nil => simp at hrlen
      | cons c2 cs2 => exact applyCalls_err_some_none c2 cs2
    | cons x xs =>
      have hmem2 : ([] : List (Pred Event)) ∈ cs := by
        rcases List.mem_cons.mp hrmem with h | h
        · exact absurd h (by simp)
        · exact h
      exact applyCalls_err_mem cs [x :: xs] hmem2

lemma defineMembers_err :
    ∀ (body : List (List (List (Pred Event)) × Method Event))
      (calls : List (List (Pred Event))) (m : Method Event),
    (calls, m) ∈ body → evalDecorators calls = .error () →
    defineMembers body = .error () := by
  intro body
  induction body with
  | nil => intro calls m h _; simp at h
  | cons cm rest ih =>
    intro calls m h herr
    rcases List.mem_cons.mp h with rfl | h
    · simp [defineMembers, herr]
    · cases he : evalDecorators cm.1 with
      | error u => cases u; simp [defineMembers, he]
      | ok a => simp [defineMembers, he, ih calls m h herr]

lemma specAttr_cond (calls : List (List (Pred Event))) (hne : calls ≠ [])
    (hcond : ∀ c ∈ calls, c ≠ []) :
    calls.isEmpty = false ∧ calls.any List.isEmpty = false ∧
    specAttr calls = some (some calls.reverse) := by
  have h1 : calls.isEmpty = false := by
    cases calls with
    | nil => exact absurd rfl hne
    | cons x xs => rfl
  have h2 : calls.any List.isEmpty = false := by
    rw [List.any_eq_false]
    intro c hc
    have hcc := hcond c hc
    cases c with
    | nil => exact absurd rfl hcc
    | cons x xs => simp [List.isEmpty]
  exact ⟨h1, h2, by simp [specAttr, h1, h2]⟩

lemma evalDecorators_valid (calls : List (List (Pred Event)))
    (hv : validCalls calls) :
    evalDecorators calls = .ok (specAttr calls) := by
  rcases hv with rfl | rfl | hcond
  · rfl
  · rfl
  · by_cases hne : calls = []
    · subst hne; rfl
    · rw [evalDecorators_nonempty calls hne hcond,
        (specAttr_cond calls hne hcond).2.2]

lemma defineMembers_valid :
    ∀ (body : List (List (List (Pred Event)) × Method Event)),
    (∀ cm ∈ body, validCalls cm.1) →
    defineMembers body = .ok (body.map fun cm => (specAttr cm.1, cm.2)) := by
  intro body
  induction body with
  | nil => intro _; rfl
  | cons cm rest ih =>
    intro h
    have h1 := evalDecorators_valid cm.1 (h cm (List.mem_cons_self cm rest))
    have h2 := ih fun d hd => h d (List.mem_cons_of_mem _ hd)
    simp [defineMembers, h1, h2]

lemma init_subclass_spec :
    ∀ (body : List (List (List (Pred Event)) × Method Event)),
    (∀ cm ∈ body, validCalls cm.1) →
    init_subclass (body.map fun cm => (specAttr cm.1, cm.2)) =
      registrySpec body := by
  intro body
  induction body with
  | nil => intro _; rfl
  | cons cm rest ih =>
    intro h
    have hrest := ih fun d hd => h d (List.mem_cons_of_mem _ hd)
    rcases h cm (List.mem_cons_self cm rest) with hnil | huncond | hcond
    · simp [init_subclass, List.filterMap_cons, hnil, specAttr,
        registrySpec] at hrest ⊢
      exact hrest
    · simp [init_subclass, List.filterMap_cons, huncond, specAttr,
        registrySpec] at hrest ⊢
      exact hrest
    · by_cases hne : cm.1 = []
      · simp [init_subclass, List.filterMap_cons, hne, specAttr,
          registrySpec] at hrest ⊢
        exact hrest
      · obtain ⟨h1, h2, h3⟩ := specAttr_cond cm.1 hne hcond
        simp [init_subclass, List.filterMap_cons, h1, h2, h3,
          registrySpec, List.reverse_reverse] at hrest ⊢
        exact hrest

lemma makeProcessor_valid
    (body : List (List (List (Pred Event)) × Method Event))
    (h : ∀ cm ∈ body, validCalls cm.1) :
    makeProcessor body = .ok (registrySpec body) := by
  simp [makeProcessor, defineMembers_valid body h, init_subclass_spec body h]

/-- Claim C6: stacking an unconditional (zero-predicate) annotation with any
other annotation — conditional or unconditional, in either order — fails at
decoration time and makes the whole class definition fail, so the processor
type is unusable. -/
theorem c6_mixed_annotations_fail
    (body : List (List (List (Pred Event)) × Method Event))
    (calls : List (List (Pred Event))) (m : Method Event)
    (hmem : (calls, m) ∈ body) (hlen : 2 ≤ calls.length)
    (hempty : [] ∈ calls) :
    evalDecorators calls = Except.error () ∧
    makeProcessor body = Except.error () := by
  have herr := evalDecorators_mixed calls hlen hempty
  exact ⟨herr, by
    simp [makeProcessor, defineMembers_err body calls m hmem herr]⟩

/-- Witness for C6 at a concrete input: a conditional annotation stacked
under an unconditional one aborts the class definition. -/
theorem c6_wit :
    (([[], [qA]] : List (List (Pred Nat))), mA) ∈ [([[], [qA]], mA)] ∧
    2 ≤ ([[], [qA]] : List (List (Pred Nat))).length ∧
    makeProcessor [([[], [qA]], mA)] = Except.error () := by
  refine ⟨List.mem_cons_self _ _, by simp, ?_⟩
  exact (c6_mixed_annotations_fail [([[], [qA]], mA)] [[], [qA]] mA
    (List.mem_cons_self _ _) (by simp) (by simp)).2

/-- Claim C7: stacked conditional annotations accumulate one AND-clause per
call, innermost-applied first (so the attribute holds the calls reversed),
and type finalization reverses the list exactly once, making the effective
OR-clause order in the registry equal to the top-to-bottom source order. -/
theorem c7_stacked_annotation_order (calls : List (List (Pred Event)))
    (m : Method Event) (hne : calls ≠ [])
    (hcond : ∀ c ∈ calls, c ≠ []) :
    evalDecorators calls = Except.ok (some (some calls.reverse)) ∧
    makeProcessor [(calls, m)] =
      Except.ok [⟨m.id, some calls, m.run⟩] := by
  have h1 := evalDecorators_nonempty calls hne hcond
  refine ⟨h1, ?_⟩
  simp [makeProcessor, defineMembers, h1, init_subclass,
    List.filterMap_cons, List.reverse_reverse]

/-- Witness for C7 at a concrete input: two stacked single-predicate
annotations end up in source order in the registry. -/
theorem c7_wit :
    ([[qA], [qB]] : List (List (Pred Nat))) ≠ [] ∧
    makeProcessor [([[qA], [qB]], mA)] =
      Except.ok [⟨40, some [[qA], [qB]], mA.run⟩] := by
  have hv2 : ∀ c ∈ [[qA], [qB]], c ≠ ([] : List (Pred Nat)) := by
    intro c hc
    rcases List.mem_cons.mp hc with rfl | hc
    · simp
    · rcases List.mem_cons.mp hc with rfl | hc
      · simp
      · simp at hc
  refine ⟨by simp, ?_⟩
  exact (c7_stacked_annotation_order [[qA], [qB]] mA (by simp) hv2).2

/-- Claim C8: the registry built at type finalization is exactly the
sequence of (Predicate Group Set, Handler Method) pairs for every annotated
member in member-declaration order (the spec-side `registrySpec`), and the
handler invocations of every dispatch follow that fixed registry order (a
sublist of the registry's identifiers), the same for all dispatches of the
type. -/
theorem c8_registry_built_once_and_stable :
    (∀ body : List (List (List (Pred Event)) × Method Event),
      (∀ cm ∈ body, validCalls cm.1) →
      makeProcessor body = Except.ok (registrySpec body)) ∧
    (∀ (e : Event) (hs : List (HandlerDecl Event)),
      (handlerCalls (process_event e hs).1).Sublist
        (hs.map HandlerDecl.id)) :=
  ⟨fun body h => makeProcessor_valid body h,
    fun e hs => process_event_sublist e hs⟩

/-- Witness for C8 at a concrete input: a two-member class body (one
unconditional, one conditional) yields exactly the spec-described
registry. -/
theorem c8_wit :
    validCalls ([[]] : List (List (Pred Nat))) ∧
    validCalls ([[qA], [qB]] : List (List (Pred Nat))) ∧
    makeProcessor [([[]], mB), ([[qA], [qB]], mA)] =
      Except.ok [⟨41, Option.none, mB.run⟩,
        ⟨40, some [[qA], [qB]], mA.run⟩] := by
  have hv2 : ∀ c ∈ [[qA], [qB]], c ≠ ([] : List (Pred Nat)) := by
    intro c hc
    rcases List.mem_cons.mp hc with rfl | hc
    · simp
    · rcases List.mem_cons.mp hc with rfl | hc
      · simp
      · simp at hc
  have hv : ∀ cm ∈ [(([[]] : List (List (Pred Nat))), mB),
      ([[qA], [qB]], mA)], validCalls cm.1 := by
    intro cm hcm
    rcases List.mem_cons.mp hcm with rfl | hcm
    · exact Or.inr (Or.inl rfl)
    · rcases List.mem_cons.mp hcm with rfl | hcm
      · exact Or.inr (Or.inr hv2)
      · simp at hcm
  have h := (@c8_registry_built_once_and_stable Nat).1 _ hv
  refine ⟨Or.inr (Or.inl rfl), Or.inr (Or.inr hv2), ?_⟩
  rw [h]
  rfl

end Aioevproc
